import Mathlib

/-!
Verification of the semantic retrieval and ranking core of the
documentation-maintenance system: the markdown chunker and indexer
(`semantic_memory/indexer.py`), the knowledge-graph builder
(`semantic_memory/graph.py`), the vector search module
(`lib/vector_search.py`) and the single-best-section retriever
(`semantic_memory/retriever.py`).

Text is modelled as `List Char` (Python strings are sequences of code
points); floating-point arithmetic is modelled over `ℝ`; the MongoDB
`readme_chunks` collection is modelled as a list of records; external
collaborators (the Voyage embedding provider and the Fireworks LLM) are
modelled as oracle functions returning `Except`, so that a raised
exception is an `.error` value.
-/

/-! ### Chunker

Both `index_repo` and `build_graph` split a document with
`content.split("\n## ")`, drop segments that are whitespace-only
(`if s.strip()`), and for each kept segment at position `i` take
`header = section.split("\n")[0] if i > 0 else "Introduction"` and
`full_text = f"## {section}" if i > 0 else section`.
-/

/-- Whitespace characters removed by Python's `str.strip()` (ASCII range). -/
def pyIsSpace (c : Char) : Bool :=
  c = ' ' || c = '\t' || c = '\n' || c = '\r' || c = '\x0b' || c = '\x0c'

/-- Python truthiness of `s.strip()`: the segment is kept iff it contains a
non-whitespace character. -/
def keepSegment (s : List Char) : Bool :=
  s.any (fun c => !(pyIsSpace c))

/-- Python `content.split("\n## ")`: split on the leftmost occurrences of the
four-character separator `"\n## "`. -/
def splitHdr : List Char → List (List Char)
  | [] => [[]]
  | '\n' :: '#' :: '#' :: ' ' :: rest => [] :: splitHdr rest
  | c :: rest =>
    match splitHdr rest with
    | [] => [[c]]
    | t :: ts => (c :: t) :: ts

/-- Number of occurrences of the separator `"\n## "` in the text. -/
def countHdrOcc : List Char → Nat
  | [] => 0
  | '\n' :: '#' :: '#' :: ' ' :: rest => countHdrOcc rest + 1
  | _ :: rest => countHdrOcc rest

/-- Whether the text begins with the level-2 header marker `"## "`. -/
def isHdrStart : List Char → Bool
  | '#' :: '#' :: ' ' :: _ => true
  | _ => false

/-- Number of level-2 headers in a markdown document: lines that begin with
`"## "`, i.e. occurrences of `"\n## "` plus one if the document itself starts
with `"## "`. -/
def countL2Headers (s : List Char) : Nat :=
  (if isHdrStart s then 1 else 0) + countHdrOcc s

/-- Concatenate a list of texts with the given separator between consecutive
elements (Python `sep.join`). -/
def joinSep (sep : List Char) : List (List Char) → List Char
  | [] => []
  | [x] => x
  | x :: y :: ys => x ++ sep ++ joinSep sep (y :: ys)

/-- The filtered segment list both pipelines iterate over:
`[s for s in content.split("\n## ") if s.strip()]`. -/
def chunkSegments (content : List Char) : List (List Char) :=
  (splitHdr content).filter keepSegment

/-- The level-2 header marker re-prepended to every non-introduction
segment. -/
def hdrMarker : List Char := ['#', '#', ' ']

/-- Python `section.split("\n")[0] if i > 0 else "Introduction"`. -/
def sectionName (i : Nat) (seg : List Char) : List Char :=
  if 0 < i then seg.takeWhile (fun c => c ≠ '\n') else ("Introduction").data

/-- Python `f"## {section}" if i > 0 else section`. -/
def sectionFullText (i : Nat) (seg : List Char) : List Char :=
  if 0 < i then hdrMarker ++ seg else seg

/-- One chunked section: its 0-based index, its name and its full text. -/
structure Sec where
  idx : Nat
  name : List Char
  text : List Char
deriving DecidableEq, Repr

/-- The chunker shared by the indexer and the graph builder: enumerate the
kept segments and attach names and full texts. -/
def chunk (content : List Char) : List Sec :=
  (chunkSegments content).enum.map
    (fun p => ⟨p.1, sectionName p.1 p.2, sectionFullText p.1 p.2⟩)

/-- Expected full texts of the split segments: the first one untouched, the
marker re-prepended to each later one. -/
def applyMarkers : List (List Char) → List (List Char)
  | [] => []
  | x :: xs => x :: xs.map (fun s => hdrMarker ++ s)

/-! ### Chunker lemmas -/

/-- The four-character separator consumed by the split: a newline followed by
the level-2 marker. -/
def hdrSep : List Char := ['\n', '#', '#', ' ']

theorem splitHdr_cons_eq (c : Char) (rest : List Char)
    (hne : ∀ (r : List Char), c = '\n' → rest = '#' :: '#' :: ' ' :: r → False) :
    splitHdr (c :: rest) =
      match splitHdr rest with
      | [] => [[c]]
      | t :: ts => (c :: t) :: ts := by
  rw [splitHdr.eq_def]
  split
  · simp_all
  · rename_i r heq
    exact absurd heq (by intro h; cases h; exact hne r rfl rfl)
  · rename_i c2 r2 hx heq
    cases heq
    rfl

theorem countHdrOcc_cons_eq (c : Char) (rest : List Char)
    (hne : ∀ (r : List Char), c = '\n' → rest = '#' :: '#' :: ' ' :: r → False) :
    countHdrOcc (c :: rest) = countHdrOcc rest := by
  rw [countHdrOcc.eq_def]
  split
  · simp_all
  · rename_i r heq
    exact absurd heq (by intro h; cases h; exact hne r rfl rfl)
  · rename_i x c2 r2 heq
    cases heq
    rfl

theorem splitHdr_ne_nil (s : List Char) : splitHdr s ≠ [] := by
  induction s using splitHdr.induct with
  | case1 => simp [splitHdr]
  | case2 rest ih => simp [splitHdr]
  | case3 c rest hne h ih => rw [splitHdr_cons_eq c rest hne, h]; simp
  | case4 c rest hne t ts h ih => rw [splitHdr_cons_eq c rest hne, h]; simp

theorem joinSep_append_head (sep m t : List Char) (ts : List (List Char)) :
    joinSep sep ((m ++ t) :: ts) = m ++ joinSep sep (t :: ts) := by
  cases ts <;> simp [joinSep]

theorem joinSep_cons_cons (sep x y : List Char) (ys : List (List Char)) :
    joinSep sep (x :: y :: ys) = x ++ sep ++ joinSep sep (y :: ys) := rfl

/-- Re-joining the split segments with the separator that the split consumed
reproduces the document exactly. -/
theorem joinSep_splitHdr (s : List Char) : joinSep hdrSep (splitHdr s) = s := by
  induction s using splitHdr.induct with
  | case1 => simp [splitHdr, joinSep]
  | case2 rest ih =>
    have hne := splitHdr_ne_nil rest
    rw [splitHdr]
    cases h : splitHdr rest with
    | nil => exact absurd h hne
    | cons t ts =>
      rw [h] at ih
      rw [joinSep_cons_cons, ← ih]
      simp [hdrSep]
  | case3 c rest hne h ih => exact absurd h (splitHdr_ne_nil rest)
  | case4 c rest hne t ts h ih =>
    rw [splitHdr_cons_eq c rest hne, h]
    rw [h] at ih
    have : joinSep hdrSep ((c :: t) :: ts) = c :: joinSep hdrSep (t :: ts) := by
      have := joinSep_append_head hdrSep [c] t ts
      simpa using this
    rw [this, ih]

/-- The split produces one more segment than the number of separator
occurrences. -/
theorem length_splitHdr (s : List Char) :
    (splitHdr s).length = countHdrOcc s + 1 := by
  induction s using splitHdr.induct with
  | case1 => simp [splitHdr, countHdrOcc]
  | case2 rest ih => simp [splitHdr, countHdrOcc, ih]
  | case3 c rest hne h ih => exact absurd h (splitHdr_ne_nil rest)
  | case4 c rest hne t ts h ih =>
    rw [splitHdr_cons_eq c rest hne, h, countHdrOcc_cons_eq c rest hne]
    rw [h] at ih
    simpa using ih

theorem enumFrom_fullText (xs : List (List Char)) :
    ∀ n : Nat, 0 < n →
      (List.enumFrom n xs).map (fun p => sectionFullText p.1 p.2) =
        xs.map (fun s => hdrMarker ++ s) := by
  induction xs with
  | nil => intro n _; rfl
  | cons x xs ih =>
    intro n hn
    rw [List.enumFrom_cons]
    simp only [List.map_cons]
    rw [ih (n + 1) (Nat.succ_pos n)]
    simp [sectionFullText, hn]

theorem enum_fullText (l : List (List Char)) :
    l.enum.map (fun p => sectionFullText p.1 p.2) = applyMarkers l := by
  cases l with
  | nil => rfl
  | cons x xs =>
    rw [List.enum_cons]
    simp only [List.map_cons]
    rw [enumFrom_fullText xs 1 Nat.one_pos]
    simp [sectionFullText, applyMarkers]

theorem joinSep_newline_markers (s0 : List Char) (rest : List (List Char)) :
    joinSep ['\n'] (s0 :: rest.map (fun s => hdrMarker ++ s)) =
      joinSep hdrSep (s0 :: rest) := by
  induction rest generalizing s0 with
  | nil => rfl
  | cons t ts ih =>
    simp only [List.map_cons]
    rw [joinSep_cons_cons, ih (hdrMarker ++ t), joinSep_cons_cons]
    rw [joinSep_append_head hdrSep hdrMarker t ts]
    simp [hdrSep, hdrMarker]

/-- C1: the chunk round-trip claim, amended. The code drops whitespace-only
segments and does not split at a header on the very first line, and plain
concatenation of the section texts loses the newline the split consumed
before each header. Provided the document does not begin with the level-2
marker and every split segment contains a non-whitespace character, chunking
a document with k level-2 headers yields k+1 sections with indices 0..k, the
first labeled Introduction, every later section's text equal to its split
segment with the marker re-prepended, and joining all section texts with a
newline separator reproduces the document byte for byte. -/
theorem C1_chunk_round_trip (d : List Char)
    (h0 : isHdrStart d = false)
    (hkeep : ∀ seg ∈ splitHdr d, keepSegment seg = true) :
    (chunk d).length = countL2Headers d + 1 ∧
    (chunk d).map Sec.idx = List.range ((chunk d).length) ∧
    (∀ s ∈ chunk d, s.idx = 0 → s.name = ("Introduction").data) ∧
    (chunk d).map Sec.text = applyMarkers (splitHdr d) ∧
    joinSep ['\n'] ((chunk d).map Sec.text) = d := by
  have hseg : chunkSegments d = splitHdr d := List.filter_eq_self.mpr hkeep
  have hlen : (chunk d).length = (splitHdr d).length := by
    simp [chunk, hseg]
  have htext : (chunk d).map Sec.text = applyMarkers (splitHdr d) := by
    rw [chunk, hseg, List.map_map]
    exact enum_fullText (splitHdr d)
  refine ⟨?_, ?_, ?_, htext, ?_⟩
  · rw [hlen, length_splitHdr, countL2Headers, h0]
    simp
  · have : (chunk d).map Sec.idx = List.range ((splitHdr d).length) := by
      rw [chunk, hseg, List.map_map]
      have hfun :
          (Sec.idx ∘ fun p : Nat × List Char =>
            (⟨p.1, sectionName p.1 p.2, sectionFullText p.1 p.2⟩ : Sec)) = Prod.fst := by
        funext p
        rfl
      rw [hfun, List.enum_map_fst]
    rw [this, hlen]
  · intro s hs hidx
    rw [chunk] at hs
    obtain ⟨p, _, rfl⟩ := List.mem_map.mp hs
    simp only at hidx
    simp [sectionName, hidx]
  · rw [htext]
    obtain ⟨s0, rest, hsplit⟩ : ∃ s0 rest, splitHdr d = s0 :: rest := by
      cases h : splitHdr d with
      | nil => exact absurd h (splitHdr_ne_nil d)
      | cons a l => exact ⟨a, l, rfl⟩
    rw [hsplit, applyMarkers, joinSep_newline_markers, ← hsplit, joinSep_splitHdr]

/-- C1 witness: the amended round trip evaluated on the two-header document
from the end-to-end scenario of the specification. -/
theorem C1_chunk_round_trip_witness :
    (isHdrStart ("Intro text\n## Setup\nInstall steps").data = false) ∧
    ((chunk ("Intro text\n## Setup\nInstall steps").data).length =
        countL2Headers (("Intro text\n## Setup\nInstall steps").data) + 1 ∧
      (chunk ("Intro text\n## Setup\nInstall steps").data).map Sec.idx =
        List.range ((chunk ("Intro text\n## Setup\nInstall steps").data).length) ∧
      (∀ s ∈ chunk ("Intro text\n## Setup\nInstall steps").data,
        s.idx = 0 → s.name = ("Introduction").data) ∧
      (chunk ("Intro text\n## Setup\nInstall steps").data).map Sec.text =
        applyMarkers (splitHdr ("Intro text\n## Setup\nInstall steps").data) ∧
      joinSep ['\n']
          ((chunk ("Intro text\n## Setup\nInstall steps").data).map Sec.text) =
        ("Intro text\n## Setup\nInstall steps").data) :=
  ⟨by decide, C1_chunk_round_trip _ (by decide) (by decide)⟩

/-- C1 counterexample: plain concatenation of the section texts does not
reproduce the document (the newline before each header is lost), and for a
document whose segment before the first header is whitespace-only the section
count is k rather than k+1. -/
theorem C1_chunk_round_trip_counterexample :
    List.flatten ((chunk ("intro\n## A\nbody").data).map Sec.text) ≠
        ("intro\n## A\nbody").data ∧
    (chunk ("\n## A\nbody").data).length ≠
        countL2Headers (("\n## A\nbody").data) + 1 := by
  exact ⟨by decide, by decide⟩

/-! ### Cosine similarity

Model of `_cosine_sim` in `lib/vector_search.py`. Python floats are
modelled as real numbers; `math.sqrt` as `Real.sqrt`. The function
truncates both vectors to the shorter length, returns the sentinel `-1.0`
when either vector is empty or either truncated norm is zero, and
otherwise returns `dot / (na * nb)`.
-/

/-- Sum of squares of the entries of a vector. -/
def sumSq (l : List ℝ) : ℝ := (l.map (fun x => x * x)).sum

/-- Python `sum(a[i] * b[i] for i in range(n))` over paired entries. -/
def dotList (a b : List ℝ) : ℝ := (List.zipWith (fun x y => x * y) a b).sum

/-- The truncated norm `na`: the Euclidean norm of the first
`min(len(a), len(b))` entries of `a`. -/
noncomputable def normTrunc (a b : List ℝ) : ℝ :=
  Real.sqrt (sumSq (a.take (min a.length b.length)))

/-- The truncated dot product of the two vectors. -/
def dotTrunc (a b : List ℝ) : ℝ :=
  dotList (a.take (min a.length b.length)) (b.take (min a.length b.length))

/-- Model of `_cosine_sim(a, b)`. -/
noncomputable def cosineSim (a b : List ℝ) : ℝ :=
  if a = [] ∨ b = [] then -1
  else if normTrunc a b = 0 ∨ normTrunc b a = 0 then -1
  else dotTrunc a b / (normTrunc a b * normTrunc b a)

theorem sumSq_nonneg (l : List ℝ) : 0 ≤ sumSq l := by
  apply List.sum_nonneg
  intro x hx
  obtain ⟨y, _, rfl⟩ := List.mem_map.mp hx
  exact mul_self_nonneg y

theorem sumSq_pos_of_mem {l : List ℝ} {x : ℝ} (hx : x ∈ l) (hx0 : x ≠ 0) :
    0 < sumSq l := by
  have hxx : x * x ≤ sumSq l := by
    apply List.single_le_sum
    · intro y hy
      obtain ⟨z, _, rfl⟩ := List.mem_map.mp hy
      exact mul_self_nonneg z
    · exact List.mem_map.mpr ⟨x, hx, rfl⟩
  have hpos : 0 < x * x := mul_self_pos.mpr hx0
  exact lt_of_lt_of_le hpos hxx

theorem dotList_self (a : List ℝ) : dotList a a = sumSq a := by
  induction a with
  | nil => rfl
  | cons x xs ih =>
    simp only [dotList, List.zipWith, List.sum_cons, sumSq, List.map_cons]
    rw [show (List.zipWith (fun x y => x * y) xs xs).sum = dotList xs xs from rfl, ih]
    rfl

theorem list_sum_getD (l : List ℝ) :
    l.sum = ∑ i ∈ Finset.range l.length, l.getD i 0 := by
  induction l with
  | nil => simp
  | cons x xs ih =>
    rw [List.sum_cons, List.length_cons, Finset.sum_range_succ', ih]
    simp only [List.getD_cons_succ, List.getD_cons_zero]
    ring

theorem sumSq_eq_finset (l : List ℝ) :
    sumSq l = ∑ i ∈ Finset.range l.length, (l.getD i 0) ^ 2 := by
  induction l with
  | nil => simp [sumSq]
  | cons x xs ih =>
    rw [sumSq, List.map_cons, List.sum_cons, List.length_cons, Finset.sum_range_succ']
    simp only [List.getD_cons_succ, List.getD_cons_zero]
    rw [show (List.map (fun x => x * x) xs).sum = sumSq xs from rfl, ih]
    ring

theorem zipWith_mul_sum (a : List ℝ) :
    ∀ b : List ℝ, a.length = b.length →
      (List.zipWith (fun x y => x * y) a b).sum =
        ∑ i ∈ Finset.range a.length, a.getD i 0 * b.getD i 0 := by
  induction a with
  | nil => intro b _; simp
  | cons x xs ih =>
    intro b hb
    cases b with
    | nil => simp at hb
    | cons y ys =>
      simp only [List.zipWith, List.sum_cons, List.length_cons]
      rw [Finset.sum_range_succ', ih ys (by simpa using hb)]
      simp only [List.getD_cons_succ, List.getD_cons_zero]
      ring

theorem abs_dotList_le (a b : List ℝ) (h : a.length = b.length) :
    |dotList a b| ≤ Real.sqrt (sumSq a) * Real.sqrt (sumSq b) := by
  rw [dotList, zipWith_mul_sum a b h, sumSq_eq_finset a, sumSq_eq_finset b, ← h]
  rw [abs_le]
  constructor
  · have h1 := Real.sum_mul_le_sqrt_mul_sqrt (Finset.range a.length)
      (fun i => -(a.getD i 0)) (fun i => b.getD i 0)
    simp only [neg_mul, Finset.sum_neg_distrib, neg_sq] at h1
    linarith
  · exact Real.sum_mul_le_sqrt_mul_sqrt _ _ _

/-- C2: `_cosine_sim` returns exactly -1 when either vector is empty or
either truncated norm is zero; otherwise it returns the truncated dot
product divided by the product of the truncated norms, a value that lies in
[-1, 1]; and for any vector with a non-zero entry, its similarity with
itself is exactly 1. -/
theorem C2_cosine_sim (a b : List ℝ) :
    (a = [] ∨ b = [] → cosineSim a b = -1) ∧
    (normTrunc a b = 0 ∨ normTrunc b a = 0 → cosineSim a b = -1) ∧
    (¬(a = [] ∨ b = []) → normTrunc a b ≠ 0 → normTrunc b a ≠ 0 →
      cosineSim a b = dotTrunc a b / (normTrunc a b * normTrunc b a) ∧
      -1 ≤ cosineSim a b ∧ cosineSim a b ≤ 1) ∧
    ((∃ x ∈ a, x ≠ 0) → cosineSim a a = 1) := by
  refine ⟨?_, ?_, ?_, ?_⟩
  · intro h
    rw [cosineSim, if_pos h]
  · intro h
    rw [cosineSim]
    by_cases he : a = [] ∨ b = []
    · rw [if_pos he]
    · rw [if_neg he, if_pos h]
  · intro he hna hnb
    have hcos : cosineSim a b = dotTrunc a b / (normTrunc a b * normTrunc b a) := by
      rw [cosineSim, if_neg he, if_neg (by push_neg; exact ⟨hna, hnb⟩)]
    have hna' : 0 < normTrunc a b :=
      lt_of_le_of_ne (Real.sqrt_nonneg _) (Ne.symm hna)
    have hnb' : 0 < normTrunc b a :=
      lt_of_le_of_ne (Real.sqrt_nonneg _) (Ne.symm hnb)
    have hnbeq : normTrunc b a =
        Real.sqrt (sumSq (b.take (min a.length b.length))) := by
      rw [normTrunc, Nat.min_comm]
    have hlen : (a.take (min a.length b.length)).length =
        (b.take (min a.length b.length)).length := by
      simp only [List.length_take]
      omega
    have habs : |dotTrunc a b| ≤ normTrunc a b * normTrunc b a := by
      rw [dotTrunc, dotList, normTrunc, hnbeq]
      exact abs_dotList_le _ _ hlen
    have h1 : |cosineSim a b| ≤ 1 := by
      rw [hcos, abs_div, abs_of_pos (mul_pos hna' hnb')]
      exact (div_le_one (mul_pos hna' hnb')).mpr habs
    exact ⟨hcos, (abs_le.mp h1).1, (abs_le.mp h1).2⟩
  · rintro ⟨x, hx, hx0⟩
    have hane : a ≠ [] := by rintro rfl; cases hx
    have htake : a.take (min a.length a.length) = a := by
      rw [Nat.min_self, List.take_length]
    have hs : 0 < sumSq a := sumSq_pos_of_mem hx hx0
    have hnorm : normTrunc a a = Real.sqrt (sumSq a) := by rw [normTrunc, htake]
    have hnz : normTrunc a a ≠ 0 := by
      rw [hnorm]
      exact ne_of_gt (Real.sqrt_pos.mpr hs)
    rw [cosineSim, if_neg (by simp [hane]), if_neg (by push_neg; exact ⟨hnz, hnz⟩)]
    rw [show dotTrunc a a = sumSq a from by rw [dotTrunc, htake]; exact dotList_self a]
    rw [hnorm, Real.mul_self_sqrt (sumSq_nonneg a)]
    exact div_self (ne_of_gt hs)

/-- C2 witness: the self-similarity clause evaluated at the concrete
non-zero vector (1, 0). -/
theorem C2_cosine_sim_witness : cosineSim [(1 : ℝ), 0] [(1 : ℝ), 0] = 1 :=
  (C2_cosine_sim [(1 : ℝ), 0] [(1 : ℝ), 0]).2.2.2 ⟨1, by simp, one_ne_zero⟩

/-! ### Query embedding

Model of `embed_text` in `lib/vector_search.py`. The Voyage client call is
an oracle `provider`; a raised exception is an `.error` value. When no API
key is configured, or when the provider call raises, the function builds a
deterministic local vector: 128 buckets, bucket `i % 128` incremented by
`(ord(ch) % 97) / 97.0` for each of the first 4096 characters, then divided
by the L2 norm (or by 1.0 when the norm is zero).
-/

/-- Environment of `embed_text`: the `VOYAGE_API_KEY` setting and the
provider call for a single query text. -/
structure EmbedEnv where
  voyage_key : Option String
  provider : String → Except String (List ℝ)

/-- Contribution of one character: `(ord(ch) % 97) / 97.0`. -/
noncomputable def contrib (c : Char) : ℝ := ((c.toNat % 97 : ℕ) : ℝ) / 97

/-- Python `vec[j] += x`. -/
noncomputable def bump (v : List ℝ) (j : Nat) (x : ℝ) : List ℝ :=
  v.set j (v.getD j 0 + x)

/-- The accumulation loop `for i, ch in enumerate(text[:4096])`. -/
noncomputable def hashAux : List Char → Nat → List ℝ → List ℝ
  | [], _, v => v
  | c :: cs, i, v => hashAux cs (i + 1) (bump v (i % 128) (contrib c))

/-- The unnormalized 128-bucket hash vector of a text. -/
noncomputable def hashVec (t : List Char) : List ℝ :=
  hashAux (t.take 4096) 0 (List.replicate 128 0)

theorem contrib_nonneg (c : Char) : 0 ≤ contrib c := by
  rw [contrib]
  positivity

/-- The local deterministic fallback embedding: the hash vector divided by
its L2 norm, with `norm or 1.0` guarding against a zero norm. -/
noncomputable def localFallback (text : String) : List ℝ :=
  let vec := hashVec text.data
  let norm0 := Real.sqrt (sumSq vec)
  let norm := if norm0 = 0 then 1 else norm0
  vec.map (fun x => x / norm)

/-- Model of `embed_text(text)`: the provider result when a key is set and
the call succeeds, the local fallback otherwise. -/
noncomputable def embed_text (env : EmbedEnv) (text : String) : List ℝ :=
  match env.voyage_key with
  | some _ =>
    match env.provider text with
    | .ok emb => emb
    | .error _ => localFallback text
  | none => localFallback text

theorem bump_length (v : List ℝ) (j : Nat) (x : ℝ) :
    (bump v j x).length = v.length := by
  simp [bump]

theorem hashAux_length (cs : List Char) :
    ∀ (i : Nat) (v : List ℝ), (hashAux cs i v).length = v.length := by
  induction cs with
  | nil => intro i v; rfl
  | cons c cs ih =>
    intro i v
    simp only [hashAux]
    rw [ih, bump_length]

theorem hashVec_length (t : List Char) : (hashVec t).length = 128 := by
  rw [hashVec, hashAux_length, List.length_replicate]

theorem set_getD_self (v : List ℝ) (j : Nat) : v.set j (v.getD j 0) = v := by
  induction v generalizing j with
  | nil => simp
  | cons x xs ih =>
    cases j with
    | zero => simp [List.getD_cons_zero]
    | succ n =>
      simp only [List.getD_cons_succ, List.set]
      simpa [List.getD] using ih n

theorem hashAux_zero (cs : List Char) :
    ∀ (i : Nat) (v : List ℝ), (∀ c ∈ cs, contrib c = 0) →
      hashAux cs i v = v := by
  induction cs with
  | nil => intro i v _; rfl
  | cons c cs ih =>
    intro i v h
    simp only [hashAux]
    rw [show contrib c = 0 from h c (List.mem_cons_self c cs)]
    rw [show bump v (i % 128) 0 = v from by
      rw [bump, add_zero, set_getD_self]]
    exact ih (i + 1) v (fun d hd => h d (List.mem_cons_of_mem c hd))

theorem sum_bump (v : List ℝ) (j : Nat) (x : ℝ) (h : j < v.length) :
    (bump v j x).sum = v.sum + x := by
  induction v generalizing j with
  | nil => simp at h
  | cons y ys ih =>
    cases j with
    | zero =>
      simp only [bump, List.getD_cons_zero, List.set, List.sum_cons]
      ring
    | succ n =>
      simp only [bump, List.getD_cons_succ, List.set, List.sum_cons]
      rw [show ys.set n (ys.getD n 0 + x) = bump ys n x from rfl,
        ih n (by simpa using h)]
      ring

theorem sum_hashAux (cs : List Char) :
    ∀ (i : Nat) (v : List ℝ), v.length = 128 →
      (hashAux cs i v).sum = v.sum + (cs.map contrib).sum := by
  induction cs with
  | nil => intro i v _; simp only [hashAux, List.map_nil, List.sum_nil, add_zero]
  | cons c cs ih =>
    intro i v hv
    simp only [hashAux]
    rw [ih (i + 1) _ (by rw [bump_length, hv]),
      sum_bump v _ _ (by rw [hv]; exact Nat.mod_lt _ (by norm_num))]
    simp only [List.map_cons, List.sum_cons]
    ring

theorem mem_bump_nonneg (v : List ℝ) (j : Nat) (x : ℝ) (hx : 0 ≤ x)
    (hv : ∀ y ∈ v, 0 ≤ y) : ∀ y ∈ bump v j x, 0 ≤ y := by
  intro y hy
  rcases List.mem_or_eq_of_mem_set hy with h | h
  · exact hv y h
  · subst h
    have : 0 ≤ v.getD j 0 := by
      rcases Nat.lt_or_ge j v.length with hj | hj
      · rw [List.getD_eq_getElem v 0 hj]
        exact hv _ (List.getElem_mem hj)
      · rw [List.getD_eq_default v 0 hj]
    linarith

theorem mem_hashAux_nonneg (cs : List Char) :
    ∀ (i : Nat) (v : List ℝ), (∀ y ∈ v, 0 ≤ y) →
      ∀ y ∈ hashAux cs i v, 0 ≤ y := by
  induction cs with
  | nil => intro i v hv; exact hv
  | cons c cs ih =>
    intro i v hv
    simp only [hashAux]
    exact ih (i + 1) _ (mem_bump_nonneg v _ _ (contrib_nonneg c) hv)

theorem hashVec_nonneg (t : List Char) : ∀ y ∈ hashVec t, 0 ≤ y := by
  apply mem_hashAux_nonneg
  intro y hy
  rw [List.eq_of_mem_replicate hy]

theorem sumSq_map_div (l : List ℝ) (c : ℝ) :
    sumSq (l.map (fun x => x / c)) = sumSq l / c ^ 2 := by
  induction l with
  | nil => simp [sumSq]
  | cons x xs ih =>
    simp only [List.map_cons, sumSq, List.sum_cons] at *
    rw [ih]
    ring

theorem localFallback_length (t : String) : (localFallback t).length = 128 := by
  simp only [localFallback, List.length_map]
  exact hashVec_length t.data

/-- When every character code is divisible by 97, every bucket contribution
is zero and the fallback vector is the all-zero vector. -/
theorem localFallback_zero (t : String)
    (h : ∀ c ∈ t.data, c.toNat % 97 = 0) :
    localFallback t = List.replicate 128 0 := by
  have hz : ∀ c ∈ t.data.take 4096, contrib c = 0 := by
    intro c hc
    rw [contrib, h c (List.mem_of_mem_take hc)]
    simp
  have hv : hashVec t.data = List.replicate 128 0 := by
    rw [hashVec]
    exact hashAux_zero _ 0 _ hz
  simp only [localFallback, hv, List.map_replicate]
  simp

/-- When some character in the hashed window contributes a non-zero amount,
the fallback vector has L2 norm exactly 1. -/
theorem localFallback_unit (t : String)
    (h : ∃ c ∈ t.data.take 4096, c.toNat % 97 ≠ 0) :
    sumSq (localFallback t) = 1 := by
  obtain ⟨c, hc, hc0⟩ := h
  have hcontrib : 0 < contrib c := by
    rw [contrib]
    exact div_pos (by exact_mod_cast Nat.pos_of_ne_zero hc0) (by norm_num)
  have hsum : 0 < ((t.data.take 4096).map contrib).sum := by
    have hle : contrib c ≤ ((t.data.take 4096).map contrib).sum := by
      apply List.single_le_sum
      · intro y hy
        obtain ⟨d, _, rfl⟩ := List.mem_map.mp hy
        exact contrib_nonneg d
      · exact List.mem_map.mpr ⟨c, hc, rfl⟩
    linarith
  have hvsum : (hashVec t.data).sum = ((t.data.take 4096).map contrib).sum := by
    rw [hashVec, sum_hashAux _ 0 _ (List.length_replicate 128 0)]
    simp
  have hex : ∃ y ∈ hashVec t.data, y ≠ 0 := by
    by_contra hall
    push_neg at hall
    have : (hashVec t.data).sum = 0 := List.sum_eq_zero hall
    rw [hvsum] at this
    linarith
  obtain ⟨y, hy, hy0⟩ := hex
  have hss : 0 < sumSq (hashVec t.data) := sumSq_pos_of_mem hy hy0
  have hnorm : 0 < Real.sqrt (sumSq (hashVec t.data)) := Real.sqrt_pos.mpr hss
  simp only [localFallback, if_neg (ne_of_gt hnorm)]
  rw [sumSq_map_div, Real.sq_sqrt (le_of_lt hss)]
  exact div_self (ne_of_gt hss)

/-! ### File-level retrieval

Model of `find_relevant_docs` in `lib/vector_search.py`. The MongoDB query
returns the stored documents for the repository that have an `embedding`
key; each may still carry a null/empty embedding or lack a `file_path`, in
which case the loop skips it. Scores are aggregated per file path keeping
the maximum, with Python-dict insertion order; `sorted(..., key=score,
reverse=True)` is a stable descending sort, modelled by stable insertion
sort; then the optional `min_score` filter and the `[:top_k]` truncation
are applied.
-/

/-- A stored chunk as returned by the `readme_chunks` query. -/
structure StoredChunk where
  file_path : Option String
  embedding : Option (List ℝ)

/-- The per-document step of the scoring loop: skip documents whose
embedding is null or empty or whose file path is missing, otherwise score
the chunk against the query embedding. -/
noncomputable def chunkScore (qe : List ℝ) (d : StoredChunk) :
    Option (String × ℝ) :=
  match d.embedding with
  | none => none
  | some emb =>
    if emb = [] then none
    else
      match d.file_path with
      | none => none
      | some fp => some (fp, cosineSim qe emb)

/-- Python `prev = best_scores.get(fp); if prev is None or score > prev:
best_scores[fp] = score`, on an insertion-ordered association list. -/
noncomputable def setBest : List (String × ℝ) → String → ℝ → List (String × ℝ)
  | [], fp, sc => [(fp, sc)]
  | (k, v) :: rest, fp, sc =>
    if k = fp then (k, if v < sc then sc else v) :: rest
    else (k, v) :: setBest rest fp sc

/-- The scoring loop over all stored documents. -/
noncomputable def bestScores (qe : List ℝ) :
    List StoredChunk → List (String × ℝ) → List (String × ℝ)
  | [], acc => acc
  | d :: ds, acc =>
    match chunkScore qe d with
    | none => bestScores qe ds acc
    | some (fp, sc) => bestScores qe ds (setBest acc fp sc)

/-- The descending-by-score comparison of `sorted(..., key=lambda kv:
kv[1], reverse=True)`. -/
def scoreGE (x y : String × ℝ) : Prop := y.2 ≤ x.2

noncomputable instance : DecidableRel scoreGE :=
  fun x y => inferInstanceAs (Decidable (y.2 ≤ x.2))

instance : IsTotal (String × ℝ) scoreGE :=
  ⟨fun a b => (le_total b.2 a.2).imp id id⟩

instance : IsTrans (String × ℝ) scoreGE :=
  ⟨fun _ _ _ h1 h2 => le_trans h2 h1⟩

/-- Model of `find_relevant_docs(diff_text, repo_name, top_k, min_score)`,
applied to the stored documents `docs` returned by the repository query. -/
noncomputable def find_relevant_docs (env : EmbedEnv) (diff_text : String)
    (docs : List StoredChunk) (top_k : Nat) (min_score : Option ℝ) :
    List (String × ℝ) :=
  match docs with
  | [] => []
  | _ :: _ =>
    let query_emb := embed_text env diff_text
    let results := List.insertionSort scoreGE (bestScores query_emb docs [])
    let results2 :=
      match min_score with
      | none => results
      | some m => results.filter (fun r => decide (m ≤ r.2))
    results2.take top_k

/-- Association-list lookup, first match (Python `dict.get`). -/
def alookup : List (String × ℝ) → String → Option ℝ
  | [], _ => none
  | (k, v) :: rest, fp => if k = fp then some v else alookup rest fp

/-- One maximum-keeping update of an optional running best. -/
noncomputable def omax (o : Option ℝ) (s : ℝ) : Option ℝ :=
  match o with
  | none => some s
  | some v => some (if v < s then s else v)

/-- The cosine scores contributed to a given file path by the stored
documents, in iteration order. -/
noncomputable def scoresFor (qe : List ℝ) (fp : String)
    (ds : List StoredChunk) : List ℝ :=
  ((ds.filterMap (chunkScore qe)).filter (fun p => decide (p.1 = fp))).map
    (fun p => p.2)

theorem alookup_setBest_same (acc : List (String × ℝ)) (fp : String) (sc : ℝ) :
    alookup (setBest acc fp sc) fp = omax (alookup acc fp) sc := by
  induction acc with
  | nil => simp [setBest, alookup, omax]
  | cons p rest ih =>
    obtain ⟨k, v⟩ := p
    by_cases hk : k = fp
    · subst hk
      simp [setBest, alookup, omax]
    · simp [setBest, alookup, hk, ih]

theorem alookup_setBest_other (acc : List (String × ℝ)) (fp k : String)
    (sc : ℝ) (hk : k ≠ fp) :
    alookup (setBest acc fp sc) k = alookup acc k := by
  induction acc with
  | nil => simp [setBest, alookup, Ne.symm hk]
  | cons p rest ih =>
    obtain ⟨k', v⟩ := p
    by_cases hk' : k' = fp
    · subst hk'
      simp [setBest, alookup, Ne.symm hk]
    · by_cases hkk : k' = k
      · subst hkk
        simp [setBest, alookup, hk']
      · simp [setBest, alookup, hk', hkk, ih]

theorem mem_keys_setBest (acc : List (String × ℝ)) (fp x : String) (sc : ℝ)
    (hx : x ∈ (setBest acc fp sc).map Prod.fst) :
    x ∈ acc.map Prod.fst ∨ x = fp := by
  induction acc with
  | nil => simpa [setBest] using hx
  | cons p rest ih =>
    obtain ⟨k, v⟩ := p
    by_cases hk : k = fp
    · subst hk
      exact Or.inl (by simpa [setBest] using hx)
    · rw [setBest] at hx
      simp only [if_neg hk, List.map_cons, List.mem_cons] at hx
      rcases hx with h | h
      · exact Or.inl (by simp [h])
      · rcases ih h with h2 | h2
        · exact Or.inl (by simp [h2])
        · exact Or.inr h2

theorem nodup_keys_setBest (acc : List (String × ℝ)) (fp : String) (sc : ℝ)
    (h : (acc.map Prod.fst).Nodup) :
    ((setBest acc fp sc).map Prod.fst).Nodup := by
  induction acc with
  | nil => simp [setBest]
  | cons p rest ih =>
    obtain ⟨k, v⟩ := p
    simp only [List.map_cons, List.nodup_cons] at h
    by_cases hk : k = fp
    · subst hk
      simpa [setBest] using h
    · rw [setBest]
      simp only [if_neg hk, List.map_cons, List.nodup_cons]
      refine ⟨?_, ih h.2⟩
      intro hmem
      rcases mem_keys_setBest rest fp k sc hmem with h2 | h2
      · exact h.1 h2
      · exact hk h2

theorem nodup_keys_bestScores (qe : List ℝ) (ds : List StoredChunk) :
    ∀ acc : List (String × ℝ), (acc.map Prod.fst).Nodup →
      ((bestScores qe ds acc).map Prod.fst).Nodup := by
  induction ds with
  | nil => intro acc h; exact h
  | cons d ds ih =>
    intro acc h
    rw [bestScores]
    cases hcs : chunkScore qe d with
    | none => exact ih acc h
    | some p => exact ih _ (nodup_keys_setBest acc p.1 p.2 h)

theorem alookup_bestScores (qe : List ℝ) (fp : String) (ds : List StoredChunk) :
    ∀ acc : List (String × ℝ),
      alookup (bestScores qe ds acc) fp =
        List.foldl omax (alookup acc fp) (scoresFor qe fp ds) := by
  induction ds with
  | nil => intro acc; simp [bestScores, scoresFor]
  | cons d ds ih =>
    intro acc
    rw [bestScores]
    cases hcs : chunkScore qe d with
    | none =>
      rw [ih acc]
      simp [scoresFor, List.filterMap_cons, hcs]
    | some p =>
      obtain ⟨fp', sc⟩ := p
      by_cases hfp : fp' = fp
      · subst hfp
        rw [ih _, alookup_setBest_same]
        simp [scoresFor, List.filterMap_cons, hcs]
      · rw [ih _, alookup_setBest_other _ _ _ _ (Ne.symm hfp)]
        simp [scoresFor, List.filterMap_cons, hcs, hfp]

theorem alookup_of_mem (acc : List (String × ℝ)) (fp : String) (s : ℝ)
    (hnd : (acc.map Prod.fst).Nodup) (hmem : (fp, s) ∈ acc) :
    alookup acc fp = some s := by
  induction acc with
  | nil => cases hmem
  | cons p rest ih =>
    obtain ⟨k, v⟩ := p
    simp only [List.map_cons, List.nodup_cons] at hnd
    rcases List.mem_cons.mp hmem with h | h
    · cases h
      simp [alookup]
    · have hk : k ≠ fp := by
        intro hkeq
        subst hkeq
        exact hnd.1 (List.mem_map.mpr ⟨(k, s), h, rfl⟩)
      simp [alookup, hk, ih hnd.2 h]

theorem omax_some (v s : ℝ) : omax (some v) s = some (max v s) := by
  rw [omax]
  congr 1
  rcases lt_or_ge v s with h | h
  · rw [if_pos h, max_eq_right (le_of_lt h)]
  · rw [if_neg (not_lt.mpr h), max_eq_left h]

theorem foldl_omax_some (l : List ℝ) :
    ∀ v : ℝ, List.foldl omax (some v) l = some (List.foldl max v l) := by
  induction l with
  | nil => intro v; rfl
  | cons x xs ih =>
    intro v
    rw [List.foldl_cons, List.foldl_cons, omax_some, ih]

theorem foldl_max_mem (l : List ℝ) :
    ∀ v : ℝ, List.foldl max v l = v ∨ List.foldl max v l ∈ l := by
  induction l with
  | nil => intro v; exact Or.inl rfl
  | cons x xs ih =>
    intro v
    rw [List.foldl_cons]
    rcases ih (max v x) with h | h
    · rcases max_cases v x with ⟨he, _⟩ | ⟨he, _⟩
      · exact Or.inl (h.trans he)
      · exact Or.inr (by rw [h, he]; exact List.mem_cons_self x xs)
    · exact Or.inr (List.mem_cons_of_mem x h)

theorem le_foldl_max (l : List ℝ) :
    ∀ v : ℝ, v ≤ List.foldl max v l ∧ ∀ t ∈ l, t ≤ List.foldl max v l := by
  induction l with
  | nil => intro v; exact ⟨le_refl v, by simp⟩
  | cons x xs ih =>
    intro v
    rw [List.foldl_cons]
    obtain ⟨h1, h2⟩ := ih (max v x)
    refine ⟨le_trans (le_max_left v x) h1, ?_⟩
    intro t ht
    rcases List.mem_cons.mp ht with rfl | ht2
    · exact le_trans (le_max_right v t) h1
    · exact h2 t ht2

/-- The value stored for a file path by the scoring loop is the maximum of
the scores contributed to that file path. -/
theorem bestScores_max (qe : List ℝ) (ds : List StoredChunk) (fp : String)
    (s : ℝ) (h : alookup (bestScores qe ds []) fp = some s) :
    s ∈ scoresFor qe fp ds ∧ ∀ t ∈ scoresFor qe fp ds, t ≤ s := by
  rw [alookup_bestScores qe fp ds []] at h
  simp only [alookup] at h
  cases hsf : scoresFor qe fp ds with
  | nil =>
    rw [hsf] at h
    simp [omax] at h
  | cons x xs =>
    rw [hsf] at h
    rw [List.foldl_cons, show omax none x = some x from rfl,
      foldl_omax_some] at h
    have hs := Option.some.inj h
    constructor
    · rcases foldl_max_mem xs x with h2 | h2
      · rw [← hs, h2]
        exact List.mem_cons_self x xs
      · rw [← hs]
        exact List.mem_cons_of_mem x h2
    · intro t ht
      obtain ⟨h1, h2⟩ := le_foldl_max xs x
      rcases List.mem_cons.mp ht with rfl | ht2
      · rw [← hs]
        exact h1
      · rw [← hs]
        exact h2 t ht2

theorem mem_find_relevant_docs (env : EmbedEnv) (q : String)
    (docs : List StoredChunk) (k : Nat) (m : Option ℝ) (p : String × ℝ)
    (hp : p ∈ find_relevant_docs env q docs k m) :
    p ∈ bestScores (embed_text env q) docs [] := by
  rw [find_relevant_docs.eq_def] at hp
  cases docs with
  | nil => cases hp
  | cons d ds =>
    simp only at hp
    have hp2 := List.take_subset _ _ hp
    cases m with
    | none => exact (List.mem_insertionSort scoreGE).mp hp2
    | some mv =>
      exact (List.mem_insertionSort scoreGE).mp (List.mem_of_mem_filter hp2)

theorem sorted_find_relevant_docs (env : EmbedEnv) (q : String)
    (docs : List StoredChunk) (k : Nat) (m : Option ℝ) :
    List.Sorted scoreGE (find_relevant_docs env q docs k m) := by
  rw [find_relevant_docs.eq_def]
  cases docs with
  | nil => exact List.Pairwise.nil
  | cons d ds =>
    simp only
    have hs := List.sorted_insertionSort scoreGE
      (bestScores (embed_text env q) (d :: ds) [])
    cases m with
    | none => exact List.Pairwise.sublist (List.take_sublist _ _) hs
    | some mv =>
      exact List.Pairwise.sublist
        ((List.take_sublist _ _).trans (List.filter_sublist _)) hs

theorem minscore_find_relevant_docs (env : EmbedEnv) (q : String)
    (docs : List StoredChunk) (k : Nat) (mv : ℝ) (p : String × ℝ)
    (hp : p ∈ find_relevant_docs env q docs k (some mv)) : mv ≤ p.2 := by
  rw [find_relevant_docs.eq_def] at hp
  cases docs with
  | nil => cases hp
  | cons d ds =>
    simp only at hp
    have hp2 := List.take_subset _ _ hp
    exact of_decide_eq_true (List.mem_filter.mp hp2).2

theorem length_find_relevant_docs (env : EmbedEnv) (q : String)
    (docs : List StoredChunk) (k : Nat) (m : Option ℝ) :
    (find_relevant_docs env q docs k m).length ≤ k := by
  rw [find_relevant_docs.eq_def]
  cases docs with
  | nil => exact Nat.zero_le k
  | cons d ds =>
    simp only
    cases m with
    | none => exact List.length_take_le _ _
    | some mv => exact List.length_take_le _ _

/-- Helper for concrete cosine evaluations: the similarity of the unit
query (1,0) with a vector (a,b) of norm r is a / r. -/
theorem cosineSim_pair (a b r : ℝ) (hr : 0 < r) (hab : a * a + b * b = r * r) :
    cosineSim [1, 0] [a, b] = a / r := by
  have hne : ¬(([1, 0] : List ℝ) = [] ∨ ([a, b] : List ℝ) = []) := by simp
  have hn1 : normTrunc [1, 0] [a, b] = 1 := by
    rw [normTrunc]
    norm_num [sumSq]
  have hn2 : normTrunc [a, b] [1, 0] = r := by
    rw [normTrunc]
    norm_num [sumSq]
    rw [show a * a + b * b = r * r from hab, Real.sqrt_mul_self hr.le]
  have hnz : ¬(normTrunc [1, 0] [a, b] = 0 ∨ normTrunc [a, b] [1, 0] = 0) := by
    rw [hn1, hn2]
    push_neg
    exact ⟨one_ne_zero, ne_of_gt hr⟩
  rw [cosineSim, if_neg hne, if_neg hnz, hn1, hn2]
  rw [show dotTrunc [1, 0] [a, b] = a from by norm_num [dotTrunc, dotList]]
  rw [one_mul]

/-- C3: `find_relevant_docs` returns per-file pairs whose score is the
maximum cosine similarity over the file's scored chunks, sorted descending
by score, all scores clearing `min_score` when given, at most `top_k`
pairs; and on chunks scoring 0.2 and 0.9 for fileA and 0.5 for fileB it
returns fileA before fileB with score 0.9. -/
theorem C3_find_relevant_docs (env : EmbedEnv) (q : String)
    (docs : List StoredChunk) (k : Nat) (m : Option ℝ) :
    (∀ p ∈ find_relevant_docs env q docs k m,
      p.2 ∈ scoresFor (embed_text env q) p.1 docs ∧
      ∀ t ∈ scoresFor (embed_text env q) p.1 docs, t ≤ p.2) ∧
    List.Sorted scoreGE (find_relevant_docs env q docs k m) ∧
    (∀ mv : ℝ, m = some mv →
      ∀ p ∈ find_relevant_docs env q docs k m, mv ≤ p.2) ∧
    (find_relevant_docs env q docs k m).length ≤ k ∧
    (∀ e1 e2 e3 : List ℝ, e1 ≠ [] → e2 ≠ [] → e3 ≠ [] →
      cosineSim (embed_text env q) e1 = 0.2 →
      cosineSim (embed_text env q) e2 = 0.9 →
      cosineSim (embed_text env q) e3 = 0.5 →
      find_relevant_docs env q
        [⟨some "fileA", some e1⟩, ⟨some "fileA", some e2⟩,
          ⟨some "fileB", some e3⟩] 6 none =
        [("fileA", 0.9), ("fileB", 0.5)]) := by
  refine ⟨?_, sorted_find_relevant_docs env q docs k m, ?_,
    length_find_relevant_docs env q docs k m, ?_⟩
  · intro p hp
    have hmem := mem_find_relevant_docs env q docs k m p hp
    have hnd := nodup_keys_bestScores (embed_text env q) docs [] (by simp)
    have hlk : alookup (bestScores (embed_text env q) docs []) p.1 =
        some p.2 := alookup_of_mem _ _ _ hnd hmem
    exact bestScores_max _ _ _ _ hlk
  · intro mv hm p hp
    subst hm
    exact minscore_find_relevant_docs env q docs k mv p hp
  · intro e1 e2 e3 he1 he2 he3 h1 h2 h3
    have hbest : bestScores (embed_text env q)
        [⟨some "fileA", some e1⟩, ⟨some "fileA", some e2⟩,
          ⟨some "fileB", some e3⟩] [] =
        [("fileA", 0.9), ("fileB", 0.5)] := by
      simp only [bestScores, chunkScore, if_neg he1, if_neg he2, if_neg he3,
        h1, h2, h3, setBest]
      norm_num
      decide
    rw [find_relevant_docs.eq_def]
    simp only
    rw [hbest]
    rw [List.insertionSort, List.insertionSort, List.insertionSort]
    rw [List.orderedInsert, List.orderedInsert]
    rw [if_pos (show scoreGE ("fileA", (0.9 : ℝ)) ("fileB", 0.5) from by
      show (0.5 : ℝ) ≤ 0.9
      norm_num)]
    rfl

/-- An embedding environment whose provider deterministically returns the
unit query vector (1, 0). -/
noncomputable def envUnit : EmbedEnv :=
  ⟨some "key", fun _ => .ok [1, 0]⟩

/-- C3 witness: the aggregation scenario evaluated on concrete embeddings
whose cosine scores against the query vector are exactly 0.2, 0.9 and
0.5. -/
theorem C3_find_relevant_docs_witness :
    find_relevant_docs envUnit "query"
      [⟨some "fileA", some [1, Real.sqrt 24]⟩,
        ⟨some "fileA", some [9, Real.sqrt 19]⟩,
        ⟨some "fileB", some [1, Real.sqrt 3]⟩] 6 none =
      [("fileA", 0.9), ("fileB", 0.5)] := by
  have hq : embed_text envUnit "query" = [1, 0] := rfl
  have h1 : cosineSim (embed_text envUnit "query") [1, Real.sqrt 24] = 0.2 := by
    rw [hq, cosineSim_pair 1 (Real.sqrt 24) 5 (by norm_num)
      (by rw [Real.mul_self_sqrt (by norm_num : (0 : ℝ) ≤ 24)]; norm_num)]
    norm_num
  have h2 : cosineSim (embed_text envUnit "query") [9, Real.sqrt 19] = 0.9 := by
    rw [hq, cosineSim_pair 9 (Real.sqrt 19) 10 (by norm_num)
      (by rw [Real.mul_self_sqrt (by norm_num : (0 : ℝ) ≤ 19)]; norm_num)]
    norm_num
  have h3 : cosineSim (embed_text envUnit "query") [1, Real.sqrt 3] = 0.5 := by
    rw [hq, cosineSim_pair 1 (Real.sqrt 3) 2 (by norm_num)
      (by rw [Real.mul_self_sqrt (by norm_num : (0 : ℝ) ≤ 3)]; norm_num)]
    norm_num
  exact (C3_find_relevant_docs envUnit "query" [] 6 none).2.2.2.2
    [1, Real.sqrt 24] [9, Real.sqrt 19] [1, Real.sqrt 3]
    (by simp) (by simp) (by simp) h1 h2 h3

/-! ### Single-best-section retrieval

Model of the result handling of `find_relevant_doc` in
`semantic_memory/retriever.py`: the `$vectorSearch` aggregation is run by
the storage backend and delivers a list of result documents; the function
returns `results[0]` for `limit == 1` and the whole list otherwise, and
signals no results as `None` for `limit == 1` and as `[]` otherwise. -/

/-- Result shape of `find_relevant_doc`: a single optional document when
`limit` is 1, a list otherwise. -/
inductive RetResult (α : Type) where
  | one : Option α → RetResult α
  | many : List α → RetResult α

/-- Model of `find_relevant_doc` applied to the aggregation results. -/
def find_relevant_doc {α : Type} (results : List α) (limit : Nat) :
    RetResult α :=
  match results with
  | [] => if limit = 1 then .one none else .many []
  | d :: _ => if limit = 1 then .one (some d) else .many results

/-- C9: an empty result is signalled as an empty value, never as an
exception: `find_relevant_docs` returns `[]` when no stored chunks match
and when no aggregated file score clears the `min_score` threshold, and
`find_relevant_doc` returns the empty result (`None` for limit 1, `[]`
otherwise) for any requested limit when the aggregation yields no
documents. -/
theorem C9_empty_results (env : EmbedEnv) (q : String)
    (docs : List StoredChunk) (k : Nat) :
    find_relevant_docs env q [] k none = [] ∧
    (∀ mv : ℝ, (∀ p ∈ bestScores (embed_text env q) docs [], p.2 < mv) →
      find_relevant_docs env q docs k (some mv) = []) ∧
    (∀ (α : Type) (limit : Nat),
      find_relevant_doc (α := α) [] limit =
        if limit = 1 then .one none else .many []) := by
  refine ⟨rfl, ?_, ?_⟩
  · intro mv hall
    cases docs with
    | nil => rfl
    | cons d ds =>
      rw [find_relevant_docs.eq_def]
      simp only
      rw [List.filter_eq_nil_iff.mpr ?_]
      · exact List.take_nil
      · intro p hp
        have hmem := (List.mem_insertionSort scoreGE).mp hp
        simp only [decide_eq_true_eq]
        exact not_le.mpr (hall p hmem)
  · intro α limit
    rfl

/-- C9 witness: a stored chunk whose best score is 1 does not clear a
threshold of 2, and the result is the empty list. -/
theorem C9_empty_results_witness :
    find_relevant_docs envUnit "q" [⟨some "f", some [1, 0]⟩] 3 (some 2) = [] := by
  refine (C9_empty_results envUnit "q" [⟨some "f", some [1, 0]⟩] 3).2.1 2 ?_
  intro p hp
  simp only [bestScores, chunkScore,
    show embed_text envUnit "q" = [1, 0] from rfl,
    if_neg (show ¬([1, 0] : List ℝ) = [] by simp), setBest] at hp
  have hp2 : p = ("f", cosineSim [1, 0] [1, 0]) := List.mem_singleton.mp hp
  have hcos : cosineSim [(1 : ℝ), 0] [1, 0] = 1 := by
    rw [cosineSim_pair 1 0 1 one_pos (by norm_num)]
    norm_num
  rw [hp2]
  simp only [hcos]
  norm_num

/-- C7: when a key is configured and the provider call raises during query
embedding, `embed_text` returns the deterministic local fallback vector
instead of propagating the error, and `find_relevant_docs` still returns a
ranked (descending-sorted) result list. -/
theorem C7_query_fallback (env : EmbedEnv) (q key e : String)
    (hkey : env.voyage_key = some key) (hfail : env.provider q = .error e)
    (docs : List StoredChunk) (k : Nat) (m : Option ℝ) :
    embed_text env q = localFallback q ∧
    List.Sorted scoreGE (find_relevant_docs env q docs k m) := by
  constructor
  · rw [embed_text.eq_def, hkey, hfail]
  · exact sorted_find_relevant_docs env q docs k m

/-- An embedding environment with a configured key whose provider call
always raises. -/
def envFail : EmbedEnv :=
  ⟨some "key", fun _ => .error "quota exceeded"⟩

/-- C7 witness: the failing provider environment evaluated on a concrete
query. -/
theorem C7_query_fallback_witness :
    embed_text envFail "new endpoint added" =
      localFallback "new endpoint added" ∧
    List.Sorted scoreGE
      (find_relevant_docs envFail "new endpoint added" [] 6 none) :=
  C7_query_fallback envFail "new endpoint added" "key" "quota exceeded"
    rfl rfl [] 6 none

theorem sumSq_replicate_zero (n : Nat) : sumSq (List.replicate n 0) = 0 := by
  induction n with
  | zero => rfl
  | succ n ih =>
    rw [List.replicate_succ, sumSq, List.map_cons, List.sum_cons]
    rw [show (List.map (fun x => x * x) (List.replicate n 0)).sum =
      sumSq (List.replicate n 0) from rfl, ih]
    ring

/-- Cosine similarity of the all-zero 128-vector with any vector is the
sentinel -1. -/
theorem cosineSim_zero_left (emb : List ℝ) :
    cosineSim (List.replicate 128 0) emb = -1 := by
  by_cases he : emb = []
  · rw [cosineSim, if_pos (Or.inr he)]
  · have hz : normTrunc (List.replicate 128 0) emb = 0 := by
      rw [normTrunc, List.take_replicate, sumSq_replicate_zero, Real.sqrt_zero]
    rw [cosineSim, if_neg (by simp [he]), if_pos (Or.inl hz)]

theorem scoresFor_mem_cosine (qe : List ℝ) (fp : String)
    (ds : List StoredChunk) (s : ℝ) (hs : s ∈ scoresFor qe fp ds) :
    ∃ emb : List ℝ, s = cosineSim qe emb := by
  rw [scoresFor] at hs
  obtain ⟨pair, hpair, rfl⟩ := List.mem_map.mp hs
  have hp2 := List.mem_of_mem_filter hpair
  obtain ⟨d, _, hd⟩ := List.mem_filterMap.mp hp2
  rw [chunkScore.eq_def] at hd
  cases hemb : d.embedding with
  | none =>
    simp only [hemb] at hd
    cases hd
  | some emb =>
    simp only [hemb] at hd
    by_cases he : emb = []
    · rw [if_pos he] at hd
      cases hd
    · rw [if_neg he] at hd
      cases hfp : d.file_path with
      | none =>
        simp only [hfp] at hd
        cases hd
      | some fp2 =>
        simp only [hfp] at hd
        have h := Option.some.inj hd
        refine ⟨emb, ?_⟩
        rw [← h]

/-- C10: the local fallback is a pure function of the text alone (the
provider plays no role when no key is set), always 128 entries long, of L2
norm exactly 1 when some hashed character contributes a non-zero amount;
and for texts all of whose character codes are divisible by 97 it is the
all-zero vector, in which case cosine similarity against every chunk
embedding is the sentinel -1 and every file in the retrieval result
receives score -1. -/
theorem C10_fallback_properties (t : String) (env : EmbedEnv)
    (docs : List StoredChunk) (k : Nat) :
    (localFallback t).length = 128 ∧
    (∀ p1 p2 : String → Except String (List ℝ),
      embed_text ⟨none, p1⟩ t = embed_text ⟨none, p2⟩ t) ∧
    ((∃ c ∈ t.data.take 4096, c.toNat % 97 ≠ 0) →
      Real.sqrt (sumSq (localFallback t)) = 1) ∧
    ((∀ c ∈ t.data, c.toNat % 97 = 0) →
      localFallback t = List.replicate 128 0 ∧
      (∀ emb : List ℝ, cosineSim (localFallback t) emb = -1) ∧
      (env.voyage_key = none →
        ∀ p ∈ find_relevant_docs env t docs k none, p.2 = -1)) := by
  refine ⟨localFallback_length t, fun p1 p2 => rfl, ?_, ?_⟩
  · intro h
    rw [localFallback_unit t h, Real.sqrt_one]
  · intro h
    have hzero := localFallback_zero t h
    refine ⟨hzero, ?_, ?_⟩
    · intro emb
      rw [hzero]
      exact cosineSim_zero_left emb
    · intro hkey p hp
      have hq : embed_text env t = localFallback t := by
        rw [embed_text.eq_def, hkey]
      have hmem := mem_find_relevant_docs env t docs k none p hp
      have hnd := nodup_keys_bestScores (embed_text env t) docs [] (by simp)
      have hlk : alookup (bestScores (embed_text env t) docs []) p.1 =
          some p.2 := alookup_of_mem _ _ _ hnd hmem
      have hsc := (bestScores_max _ _ _ _ hlk).1
      obtain ⟨emb, hemb⟩ := scoresFor_mem_cosine _ _ _ _ hsc
      rw [hemb, hq, hzero]
      exact cosineSim_zero_left emb

/-- An embedding environment with no configured key. -/
def envNoKey : EmbedEnv := ⟨none, fun _ => .error "no key"⟩

/-- C10 witness: the input "a" (code 97) produces the all-zero fallback
vector with sentinel similarity, while "b" (code 98) produces a unit-norm
vector. -/
theorem C10_fallback_properties_witness :
    localFallback "a" = List.replicate 128 0 ∧
    Real.sqrt (sumSq (localFallback "b")) = 1 ∧
    cosineSim (localFallback "a") [1, 0] = -1 :=
  ⟨((C10_fallback_properties "a" envNoKey [] 0).2.2.2 (by decide)).1,
    (C10_fallback_properties "b" envNoKey [] 0).2.2.1
      ⟨'b', by decide, by decide⟩,
    ((C10_fallback_properties "a" envNoKey [] 0).2.2.2 (by decide)).2.1
      [1, 0]⟩

/-! ### Indexing pipeline

Model of `index_repo` in `semantic_memory/indexer.py`. The markdown files
discovered by the `os.walk` over the corpus root are given as a list of
`(file_path, content)` pairs (a file that fails to read is skipped before
this point). The Fireworks librarian and the Voyage batch embedding call
are oracles; `extract_metadata_with_ai` catches every librarian exception
and falls back to `{"summary": "General section", "keywords": [],
"clean_text": text}`. The `readme_chunks` collection is a list of chunk
records over all repositories; `delete_many({"repo_name": repo_name})`
then `insert_many(all_docs)` replaces the repository's slice of it. An
embedding batch of the wrong length leaves trailing records without an
embedding (shorter) or raises an `IndexError` before any write (longer).
-/

/-- Librarian metadata: summary, keywords, clean text. -/
structure Meta where
  summary : List Char
  keywords : List (List Char)
  clean_text : List Char

/-- Environment of the indexer: the Fireworks librarian call and the
Voyage batch embedding call. -/
structure IndexEnv where
  librarian : List Char → Except (List Char) Meta
  embedBatch : List (List Char) → Except (List Char) (List (List ℝ))

/-- Model of `extract_metadata_with_ai`: the librarian result, or the
fixed fallback on any raised exception. -/
def extract_metadata_with_ai (env : IndexEnv) (text : List Char) : Meta :=
  match env.librarian text with
  | .ok m => m
  | .error _ => ⟨("General section").data, [], text⟩

/-- One document of the `readme_chunks` collection as assembled by
`index_repo` (`rich_text` is the `rich_text_for_embedding` field; the
`metadata` subdocument is flattened). -/
structure ChunkRec where
  repo_name : String
  file_path : String
  section_name : List Char
  content : List Char
  rich_text : List Char
  section_index : Nat
  summary : List Char
  keywords : List (List Char)
  embedding : Option (List ℝ)

/-- The librarian-enriched embedding text:
`f"File: {fp}. Summary: {s}. Keywords: {ks}. Content: {c}"`. -/
def mkRichText (fp : String) (m : Meta) : List Char :=
  ("File: ").data ++ fp.data ++ (". Summary: ").data ++ m.summary ++
    (". Keywords: ").data ++ joinSep (", ").data m.keywords ++
    (". Content: ").data ++ m.clean_text

/-- The plain embedding text: `f"File: {fp}. Content: {c}"`. -/
def mkRichTextPlain (fp : String) (content_text : List Char) : List Char :=
  ("File: ").data ++ fp.data ++ (". Content: ").data ++ content_text

/-- The record built for section `i` with segment `seg` of one file. -/
def buildDoc (env : IndexEnv) (use_librarian : Bool) (repo fp : String)
    (i : Nat) (seg : List Char) : ChunkRec :=
  let header := sectionName i seg
  let full_text := sectionFullText i seg
  if use_librarian then
    let m := extract_metadata_with_ai env full_text
    { repo_name := repo, file_path := fp, section_name := header,
      content := m.clean_text, rich_text := mkRichText fp m,
      section_index := i, summary := m.summary, keywords := m.keywords,
      embedding := none }
  else
    { repo_name := repo, file_path := fp, section_name := header,
      content := full_text, rich_text := mkRichTextPlain fp full_text,
      section_index := i, summary := [], keywords := [],
      embedding := none }

/-- The records of one file, in section order. -/
def fileDocs (env : IndexEnv) (use_librarian : Bool) (repo : String)
    (file : String × List Char) : List ChunkRec :=
  (chunkSegments file.2).enum.map
    (fun p => buildDoc env use_librarian repo file.1 p.1 p.2)

/-- `all_docs`: the records of every file of the corpus in order. -/
def allDocs (env : IndexEnv) (use_librarian : Bool)
    (files : List (String × List Char)) (repo : String) : List ChunkRec :=
  (files.map (fileDocs env use_librarian repo)).flatten

/-- Python `for i, emb in enumerate(embeddings): all_docs[i]["embedding"]
= emb`: the first `len(embeddings)` records receive their embedding, any
trailing records keep none. -/
def attachEmbeddings (docs : List ChunkRec) (embs : List (List ℝ)) :
    List ChunkRec :=
  (List.zipWith (fun d e => { d with embedding := some e }) docs embs) ++
    docs.drop embs.length

/-- Model of `index_repo(repo_path, repo_name, use_librarian)` acting on
the `readme_chunks` collection `st`; the second component is the raised
exception, if any. -/
def index_repo (env : IndexEnv) (use_librarian : Bool)
    (files : List (String × List Char)) (repo : String)
    (st : List ChunkRec) : List ChunkRec × Option (List Char) :=
  match files with
  | [] => (st, none)
  | _ :: _ =>
    let docs0 := allDocs env use_librarian files repo
    match env.embedBatch (docs0.map ChunkRec.rich_text) with
    | .error e => (st, some e)
    | .ok embs =>
      if docs0.length < embs.length then (st, some ("IndexError").data)
      else
        (st.filter (fun c => decide (c.repo_name ≠ repo)) ++
          attachEmbeddings docs0 embs, none)

/-- C4: when the batch embedding call fails, `index_repo` raises and the
stored chunk set is unchanged: the delete of existing chunks happens only
after embeddings succeed, so no partial corpus is committed. -/
theorem C4_embed_failure_preserves_store (env : IndexEnv)
    (use_librarian : Bool) (files : List (String × List Char))
    (repo : String) (st : List ChunkRec) (e : List Char)
    (hf : files ≠ [])
    (hfail : env.embedBatch
      ((allDocs env use_librarian files repo).map ChunkRec.rich_text) =
      .error e) :
    index_repo env use_librarian files repo st = (st, some e) := by
  cases files with
  | nil => exact absurd rfl hf
  | cons f fs =>
    rw [index_repo.eq_def]
    simp only [hfail]

/-- An indexer environment whose batch embedding call always raises. -/
def envIdxFail : IndexEnv :=
  ⟨fun t => .ok ⟨[], [], t⟩, fun _ => .error ("boom").data⟩

/-- C4 witness: a failing batch embedding on a one-file corpus leaves the
store untouched and surfaces the error. -/
theorem C4_embed_failure_preserves_store_witness :
    index_repo envIdxFail true [("doc.md", ("Intro").data)] "r" [] =
      ([], some ("boom").data) :=
  C4_embed_failure_preserves_store envIdxFail true
    [("doc.md", ("Intro").data)] "r" [] ("boom").data (by simp) rfl

theorem buildDoc_repo (env : IndexEnv) (ul : Bool) (repo fp : String)
    (i : Nat) (seg : List Char) :
    (buildDoc env ul repo fp i seg).repo_name = repo := by
  rw [buildDoc]
  cases ul <;> simp

theorem allDocs_repo (env : IndexEnv) (ul : Bool)
    (files : List (String × List Char)) (repo : String) :
    ∀ d ∈ allDocs env ul files repo, d.repo_name = repo := by
  intro d hd
  rw [allDocs] at hd
  obtain ⟨l, hl, hdl⟩ := List.mem_flatten.mp hd
  obtain ⟨file, _, rfl⟩ := List.mem_map.mp hl
  rw [fileDocs] at hdl
  obtain ⟨p, _, rfl⟩ := List.mem_map.mp hdl
  exact buildDoc_repo env ul repo file.1 p.1 p.2

theorem attach_repo (repo : String) (docs : List ChunkRec) :
    ∀ (embs : List (List ℝ)), (∀ d ∈ docs, d.repo_name = repo) →
      ∀ d ∈ attachEmbeddings docs embs, d.repo_name = repo := by
  induction docs with
  | nil =>
    intro embs _ d hd
    rw [attachEmbeddings] at hd
    cases embs <;> simp at hd
  | cons c cs ih =>
    intro embs h d hd
    cases embs with
    | nil =>
      rw [attachEmbeddings] at hd
      simp only [List.zipWith_nil_right, List.drop_zero, List.nil_append] at hd
      exact h d hd
    | cons e es =>
      rw [attachEmbeddings] at hd
      simp only [List.zipWith_cons_cons, List.length_cons, List.drop_succ_cons,
        List.cons_append, List.mem_cons] at hd
      rcases hd with rfl | hd
      · exact h c (List.mem_cons_self c cs)
      · exact ih es (fun x hx => h x (List.mem_cons_of_mem c hx)) d
          (by rw [attachEmbeddings]; exact hd)

theorem filter_repo_of_ne (repo : String) (l : List ChunkRec) :
    (l.filter (fun c => decide (c.repo_name ≠ repo))).filter
      (fun c => decide (c.repo_name = repo)) = [] := by
  rw [List.filter_filter]
  apply List.filter_eq_nil_iff.mpr
  intro a _
  by_cases h : a.repo_name = repo <;> simp [h]

theorem filter_ne_idem (repo : String) (l : List ChunkRec) :
    (l.filter (fun c => decide (c.repo_name ≠ repo))).filter
      (fun c => decide (c.repo_name ≠ repo)) =
      l.filter (fun c => decide (c.repo_name ≠ repo)) := by
  apply List.filter_eq_self.mpr
  intro a ha
  exact (List.mem_filter.mp ha).2

/-- C5: a successful non-trivial run fully replaces the repository's chunk
set with exactly the records built from the current corpus, and running
the same indexing again returns the same store (idempotent reindex, no
duplicate or stale entries). -/
theorem C5_full_replacement (env : IndexEnv) (use_librarian : Bool)
    (files : List (String × List Char)) (repo : String)
    (st st2 : List ChunkRec) (hf : files ≠ [])
    (hrun : index_repo env use_librarian files repo st = (st2, none)) :
    (∃ embs,
      env.embedBatch
        ((allDocs env use_librarian files repo).map ChunkRec.rich_text) =
        .ok embs ∧
      st2.filter (fun c => decide (c.repo_name = repo)) =
        attachEmbeddings (allDocs env use_librarian files repo) embs ∧
      st2.filter (fun c => decide (c.repo_name ≠ repo)) =
        st.filter (fun c => decide (c.repo_name ≠ repo))) ∧
    index_repo env use_librarian files repo st2 = (st2, none) := by
  cases files with
  | nil => exact absurd rfl hf
  | cons f fs =>
    rw [index_repo.eq_def] at hrun
    simp only at hrun
    cases hemb : env.embedBatch
        ((allDocs env use_librarian (f :: fs) repo).map ChunkRec.rich_text) with
    | error e =>
      simp only [hemb] at hrun
      simp at hrun
    | ok embs =>
      simp only [hemb] at hrun
      by_cases hlen : (allDocs env use_librarian (f :: fs) repo).length <
          embs.length
      · rw [if_pos hlen] at hrun
        simp at hrun
      · rw [if_neg hlen] at hrun
        have hst2 : st2 =
            st.filter (fun c => decide (c.repo_name ≠ repo)) ++
              attachEmbeddings (allDocs env use_librarian (f :: fs) repo)
                embs := (Prod.mk.injEq _ _ _ _ ▸ hrun).1.symm
        have hattach : ∀ d ∈ attachEmbeddings
            (allDocs env use_librarian (f :: fs) repo) embs,
            d.repo_name = repo :=
          attach_repo repo _ embs (allDocs_repo env use_librarian (f :: fs) repo)
        have hfilter_eq : st2.filter (fun c => decide (c.repo_name = repo)) =
            attachEmbeddings (allDocs env use_librarian (f :: fs) repo) embs := by
          rw [hst2, List.filter_append, filter_repo_of_ne, List.nil_append]
          apply List.filter_eq_self.mpr
          intro a ha
          simp [hattach a ha]
        have hattach_ne : (attachEmbeddings
            (allDocs env use_librarian (f :: fs) repo) embs).filter
            (fun c => decide (c.repo_name ≠ repo)) = [] := by
          apply List.filter_eq_nil_iff.mpr
          intro a ha
          simp [hattach a ha]
        have hfilter_ne : st2.filter (fun c => decide (c.repo_name ≠ repo)) =
            st.filter (fun c => decide (c.repo_name ≠ repo)) := by
          rw [hst2, List.filter_append, filter_ne_idem, hattach_ne,
            List.append_nil]
        refine ⟨⟨embs, rfl, hfilter_eq, hfilter_ne⟩, ?_⟩
        rw [index_repo.eq_def]
        simp only [hemb, if_neg hlen]
        rw [hfilter_ne, ← hst2]

/-- An indexer environment whose librarian echoes the text and whose batch
embedding call returns one fixed vector per input text. -/
def envIdxOk : IndexEnv :=
  ⟨fun t => .ok ⟨("s").data, [], t⟩, fun ts => .ok (ts.map (fun _ => [1]))⟩

/-- The store produced by one successful run of the model indexer on a
one-file corpus. -/
def idxRun1 : List ChunkRec :=
  (index_repo envIdxOk true [("doc.md", ("Intro\n## A\nrest").data)] "r"
    []).1

/-- C5 witness: re-running the indexer on the store produced by the first
run returns that store unchanged. -/
theorem C5_full_replacement_witness :
    index_repo envIdxOk true [("doc.md", ("Intro\n## A\nrest").data)] "r"
      idxRun1 = (idxRun1, none) :=
  (C5_full_replacement envIdxOk true
    [("doc.md", ("Intro\n## A\nrest").data)] "r" [] idxRun1
    (by simp) rfl).2

/-- A stale chunk record left over from an earlier indexing run. -/
def staleChunk : ChunkRec :=
  ⟨"r", "old.md", [], [], [], 0, [], [], none⟩

/-- C5 counterexample: on a corpus with no markdown files, `index_repo`
returns early without raising and without deleting, so a stale chunk set
survives a successful run even though the current corpus builds no
chunks. -/
theorem C5_full_replacement_counterexample :
    (index_repo envIdxOk true [] "r" [staleChunk]).2 = none ∧
    allDocs envIdxOk true [] "r" = [] ∧
    (index_repo envIdxOk true [] "r" [staleChunk]).1.filter
      (fun c => decide (c.repo_name = "r")) ≠ [] := by
  refine ⟨rfl, rfl, ?_⟩
  simp [index_repo, staleChunk]

/-! ### Knowledge graph builder

Model of `build_graph` and `extract_code_entities` in
`semantic_memory/graph.py`. The Fireworks extraction call is an oracle;
`extract_code_entities` catches every exception and returns the all-empty
structure. `build_graph` re-chunks each file, appends one section entity
and one section-index row per section, and builds deduplicated code
entities and `describes` relationships for the extracted function and
endpoint names; the extracted class, variable and dependency lists are
never consumed (the loop after the comment "Similar for endpoints and
classes..." handles endpoints only). The collections for the repository
are cleared and rebuilt wholesale, so the model returns the built lists
directly together with the counts the function reports. -/

/-- The JSON structure returned by the extraction prompt; `vars` models
the "variables" key. -/
structure EntOut where
  functions : List (List Char)
  endpoints : List (List Char)
  classes : List (List Char)
  vars : List (List Char)
  dependencies : List (List Char)
deriving DecidableEq

/-- Environment of the graph builder: the LLM extraction call. -/
structure GraphEnv where
  llm : List Char → Except (List Char) EntOut

/-- The fallback of `extract_code_entities`: all five lists empty. -/
def emptyEntOut : EntOut := ⟨[], [], [], [], []⟩

/-- Model of `extract_code_entities(text)`: the parsed LLM output, or the
empty structure when the call raises. -/
def extract_code_entities (env : GraphEnv) (text : List Char) : EntOut :=
  match env.llm text with
  | .ok e => e
  | .error _ => emptyEntOut

/-- A section entity of the `knowledge_entities` collection. -/
structure SectionEntity where
  entity_id : List Char
  repo_name : List Char
  file_path : List Char
  section_name : List Char
  section_index : Nat
  content : List Char
  total_sections : Nat
deriving DecidableEq

/-- A code entity of the `code_entities` collection. -/
structure CodeEntity where
  entity_id : List Char
  entity_type : List Char
  name : List Char
  repo_name : List Char
  related_sections : List (List Char)
  file_path : List Char
  extracted_from : List (List Char)
deriving DecidableEq

/-- A `describes` relationship of the `knowledge_relationships`
collection. -/
structure GraphRel where
  from_id : List Char
  to_id : List Char
  repo_name : List Char
  relationship_type : List Char
deriving DecidableEq

/-- A row of the `section_index` collection. -/
structure SectionIdxRec where
  repo_name : List Char
  section_id : List Char
  file_path : List Char
  section_name : List Char
  searchable_text : List Char
deriving DecidableEq

/-- The accumulator state of the build loop: section entities,
relationships, the insertion-ordered code-entity dictionary and the
section index. -/
structure GraphAcc where
  entities : List SectionEntity
  rels : List GraphRel
  dict : List (List Char × CodeEntity)
  sidx : List SectionIdxRec

/-- Python dict semantics for `code_entities_dict`: create the entry if
absent (at the end, insertion order), then modify it in place. -/
def dictUpd (d : List (List Char × CodeEntity)) (key : List Char)
    (fresh : CodeEntity) (f : CodeEntity → CodeEntity) :
    List (List Char × CodeEntity) :=
  match d with
  | [] => [(key, f fresh)]
  | (k, v) :: rest =>
    if k = key then (k, f v) :: rest
    else (k, v) :: dictUpd rest key fresh f

/-- The per-hit update of a code entity: append the section id to
`related_sections`, and for functions also append the header to
`extracted_from` when it is not yet recorded. -/
def updCE (sid header : List Char) (track : Bool) (ce : CodeEntity) :
    CodeEntity :=
  let ce2 := { ce with related_sections := ce.related_sections ++ [sid] }
  if track then
    (if header ∈ ce2.extracted_from then ce2
      else { ce2 with extracted_from := ce2.extracted_from ++ [header] })
  else ce2

/-- The body of the `for func in entities.get("functions", [])` and
`for endpoint in ...` loops for one extracted name. -/
def nameStep (etype : List Char) (track : Bool)
    (repo fp sid header : List Char) (a : GraphAcc) (nm : List Char) :
    GraphAcc :=
  let eid := repo ++ ':' :: etype ++ ':' :: nm
  let fresh : CodeEntity := ⟨eid, etype, nm, repo, [], fp, []⟩
  { a with
    dict := dictUpd a.dict eid fresh (updCE sid header track),
    rels := a.rels ++
      [⟨sid, eid, repo, ("section_describes_").data ++ etype⟩] }

/-- One extracted-name loop over a section's names of one entity type. -/
def processNames (etype : List Char) (track : Bool)
    (repo fp sid header : List Char) (names : List (List Char))
    (acc : GraphAcc) : GraphAcc :=
  names.foldl (nameStep etype track repo fp sid header) acc

/-- Processing of one section: section entity, function and endpoint
loops, section-index row. The extracted `classes`, `variables` and
`dependencies` lists are not consumed, exactly as in the source. -/
def processSection (ext : List Char → EntOut) (repo fp : List Char)
    (nSecs : Nat) (acc : GraphAcc) (p : Nat × List Char) : GraphAcc :=
  let header := sectionName p.1 p.2
  let full_text := sectionFullText p.1 p.2
  let sid := repo ++ ':' :: fp ++ ':' :: header
  let ents := ext full_text
  let acc1 := { acc with entities := acc.entities ++
    [⟨sid, repo, fp, header, p.1, full_text, nSecs⟩] }
  let acc2 := processNames ("function").data true repo fp sid header
    ents.functions acc1
  let acc3 := processNames ("endpoint").data false repo fp sid header
    ents.endpoints acc2
  { acc3 with sidx := acc3.sidx ++
    [⟨repo, sid, fp, header, header ++ ' ' :: full_text.take 200⟩] }

/-- Processing of one file: chunk it and fold over its sections. -/
def processFile (ext : List Char → EntOut) (repo : List Char)
    (acc : GraphAcc) (file : List Char × List Char) : GraphAcc :=
  let segs := chunkSegments file.2
  segs.enum.foldl (processSection ext repo file.1 segs.length) acc

/-- The collections built by one `build_graph` run; the reported stats are
their lengths. -/
structure GraphResult where
  entities : List SectionEntity
  code_entities : List CodeEntity
  relationships : List GraphRel
  section_index : List SectionIdxRec
deriving DecidableEq

/-- The build loop over all files, starting from the cleared state. -/
def build_graph_core (ext : List Char → EntOut)
    (files : List (List Char × List Char)) (repo : List Char) :
    GraphResult :=
  let acc := files.foldl (processFile ext repo) ⟨[], [], [], []⟩
  ⟨acc.entities, acc.dict.map (fun p => p.2), acc.rels, acc.sidx⟩

/-- Model of `build_graph(repo_path, repo_name)`. -/
def build_graph (env : GraphEnv) (files : List (List Char × List Char))
    (repo : List Char) : GraphResult :=
  build_graph_core (extract_code_entities env) files repo

/-- Total number of sections over all files of the corpus. -/
def totalSections (files : List (List Char × List Char)) : Nat :=
  (files.map (fun f => (chunkSegments f.2).length)).sum

theorem processNames_entities_sidx (etype : List Char) (track : Bool)
    (repo fp sid header : List Char) (names : List (List Char)) :
    ∀ acc : GraphAcc,
      (processNames etype track repo fp sid header names acc).entities =
        acc.entities ∧
      (processNames etype track repo fp sid header names acc).sidx =
        acc.sidx := by
  induction names with
  | nil => intro acc; exact ⟨rfl, rfl⟩
  | cons nm nms ih =>
    intro acc
    rw [processNames, List.foldl_cons]
    exact ih (nameStep etype track repo fp sid header acc nm)

theorem processSection_entities_sidx (ext : List Char → EntOut)
    (repo fp : List Char) (nSecs : Nat) (acc : GraphAcc)
    (p : Nat × List Char) :
    (processSection ext repo fp nSecs acc p).entities.length =
      acc.entities.length + 1 ∧
    (processSection ext repo fp nSecs acc p).sidx.length =
      acc.sidx.length + 1 := by
  rw [processSection]
  simp only
  obtain ⟨h2e, h2s⟩ := processNames_entities_sidx ("endpoint").data false
    repo fp _ _ _ _
  obtain ⟨h1e, h1s⟩ := processNames_entities_sidx ("function").data true
    repo fp _ _ _ _
  constructor
  · rw [h2e, h1e]
    simp
  · rw [h2s, h1s]
    simp

theorem foldl_processSection_length (ext : List Char → EntOut)
    (repo fp : List Char) (nSecs : Nat) (l : List (Nat × List Char)) :
    ∀ acc : GraphAcc,
      (l.foldl (processSection ext repo fp nSecs) acc).entities.length =
        acc.entities.length + l.length ∧
      (l.foldl (processSection ext repo fp nSecs) acc).sidx.length =
        acc.sidx.length + l.length := by
  induction l with
  | nil => intro acc; exact ⟨rfl, rfl⟩
  | cons p ps ih =>
    intro acc
    rw [List.foldl_cons]
    obtain ⟨ihe, ihs⟩ := ih (processSection ext repo fp nSecs acc p)
    obtain ⟨he, hs⟩ := processSection_entities_sidx ext repo fp nSecs acc p
    constructor
    · rw [ihe, he, List.length_cons]
      omega
    · rw [ihs, hs, List.length_cons]
      omega

theorem foldl_processFile_length (ext : List Char → EntOut)
    (repo : List Char) (files : List (List Char × List Char)) :
    ∀ acc : GraphAcc,
      (files.foldl (processFile ext repo) acc).entities.length =
        acc.entities.length + totalSections files ∧
      (files.foldl (processFile ext repo) acc).sidx.length =
        acc.sidx.length + totalSections files := by
  induction files with
  | nil => intro acc; simp [totalSections]
  | cons f fs ih =>
    intro acc
    rw [List.foldl_cons]
    simp only [processFile]
    obtain ⟨ihe, ihs⟩ := ih ((chunkSegments f.2).enum.foldl
      (processSection ext repo f.1 (chunkSegments f.2).length) acc)
    obtain ⟨he, hs⟩ := foldl_processSection_length ext repo f.1
      (chunkSegments f.2).length (chunkSegments f.2).enum acc
    constructor
    · rw [ihe, he, List.enum_length]
      simp only [totalSections, List.map_cons, List.sum_cons]
      rw [show (List.map (fun f => (chunkSegments f.2).length) fs).sum =
        totalSections fs from rfl]
      omega
    · rw [ihs, hs, List.enum_length]
      simp only [totalSections, List.map_cons, List.sum_cons]
      rw [show (List.map (fun f => (chunkSegments f.2).length) fs).sum =
        totalSections fs from rfl]
      omega

/-- C8: when extraction raises for a section text, `extract_code_entities`
returns all-empty lists for it; `build_graph` (a total function in the
model: every per-section exception is caught) behaves exactly as if the
failing section had extracted nothing, and its section and section-index
counts always cover every section of every file. -/
theorem C8_extraction_isolation (env : GraphEnv) (t0 e : List Char)
    (files : List (List Char × List Char)) (repo : List Char)
    (hfail : env.llm t0 = .error e) :
    extract_code_entities env t0 = emptyEntOut ∧
    build_graph env files repo =
      build_graph ⟨fun t => if t = t0 then .ok emptyEntOut else env.llm t⟩
        files repo ∧
    (build_graph env files repo).entities.length = totalSections files ∧
    (build_graph env files repo).section_index.length =
      totalSections files := by
  have hext : extract_code_entities env =
      extract_code_entities
        ⟨fun t => if t = t0 then .ok emptyEntOut else env.llm t⟩ := by
    funext t
    by_cases ht : t = t0
    · subst ht
      rw [extract_code_entities, extract_code_entities, hfail]
      simp
    · rw [extract_code_entities, extract_code_entities]
      simp [ht]
  refine ⟨?_, ?_, ?_, ?_⟩
  · rw [extract_code_entities, hfail]
  · rw [build_graph, build_graph, hext]
  · rw [build_graph, build_graph_core]
    simp only
    simpa using (foldl_processFile_length (extract_code_entities env) repo
      files ⟨[], [], [], []⟩).1
  · rw [build_graph, build_graph_core]
    simp only
    simpa using (foldl_processFile_length (extract_code_entities env) repo
      files ⟨[], [], [], []⟩).2

/-- A graph environment whose extraction call raises exactly on the second
section of the witness corpus and extracts one function name
elsewhere. -/
def envC8 : GraphEnv :=
  ⟨fun t => if t = ("## B\ntext").data then .error ("down").data
    else .ok ⟨[("f1").data], [], [], [], []⟩⟩

/-- C8 witness: on a two-section file whose second section's extraction
raises, the build is identical to the build with that section extracting
nothing, and both counts equal 2. -/
theorem C8_extraction_isolation_witness :
    extract_code_entities envC8 (("## B\ntext").data) = emptyEntOut ∧
    build_graph envC8 [(("doc.md").data, ("Intro\n## B\ntext").data)]
        ("r").data =
      build_graph
        ⟨fun t => if t = ("## B\ntext").data then .ok emptyEntOut
          else envC8.llm t⟩
        [(("doc.md").data, ("Intro\n## B\ntext").data)] ("r").data ∧
    (build_graph envC8 [(("doc.md").data, ("Intro\n## B\ntext").data)]
        ("r").data).entities.length =
      totalSections [(("doc.md").data, ("Intro\n## B\ntext").data)] ∧
    (build_graph envC8 [(("doc.md").data, ("Intro\n## B\ntext").data)]
        ("r").data).section_index.length =
      totalSections [(("doc.md").data, ("Intro\n## B\ntext").data)] :=
  C8_extraction_isolation envC8 (("## B\ntext").data) (("down").data)
    [(("doc.md").data, ("Intro\n## B\ntext").data)] ("r").data rfl

/-- A graph environment whose extraction always returns one class, one
variable and one dependency name and nothing else. -/
def envC6 : GraphEnv :=
  ⟨fun _ => .ok ⟨[], [], [("Foo").data], [("bar").data], [("dep").data]⟩⟩

/-- C6: extraction returns the class name "Foo" (and a variable and a
dependency), yet `build_graph` records no code entity and no `describes`
relationship at all: the loops after the section entity handle only
functions and endpoints, so classes, variables and dependencies are
dropped, contrary to the source's own comment "Similar for endpoints and
classes...". -/
theorem C6_classes_not_recorded :
    (extract_code_entities envC6 (("Intro").data)).classes =
      [("Foo").data] ∧
    (build_graph envC6 [(("doc.md").data, ("Intro").data)]
      ("r").data).code_entities = [] ∧
    (build_graph envC6 [(("doc.md").data, ("Intro").data)]
      ("r").data).relationships = [] ∧
    (build_graph envC6 [(("doc.md").data, ("Intro").data)]
      ("r").data).entities.length = 1 := by
  exact ⟨rfl, rfl, rfl, rfl⟩
